import Mathlib

/-!
Shallow embedding of the `extq` estimation engine.

Source files embedded:
* `src/extq/dga/_xdga.py` — the extended-process (auxiliary index) DGA engine.
* `src/extq/memory/_dga.py` — DGA-with-memory coefficient solvers and transforms.

Real numbers are modelled by `ℚ` (exact arithmetic).  Collaborators that are
declared outside the provided sources (`linalg.solve`, `moving_matmul`,
`extq.memory._memory.memory`) are modelled from their contracts in the
specification and carry a doc comment saying so.
-/

open Matrix

/-- Square rational matrices of size `k`, the embedding of the square numpy
arrays used throughout the code. -/
abbrev Mat (k : ℕ) := Matrix (Fin k) (Fin k) ℚ

/-- Modelled from the spec: `linalg.solve(A, b)` (§6) for a vector right-hand
side.  The collaborator solves `A x = b` and fails with a singularity error if
`A` is not invertible; the failure is modelled by `none`, and the solution is
produced by Cramer's rule, which agrees with any exact solver. -/
def lsolveVec {k : ℕ} (A : Mat k) (b : Fin k → ℚ) : Option (Fin k → ℚ) :=
  if A.det = 0 then none else some (A.det⁻¹ • (A.adjugate *ᵥ b))

/-- Modelled from the spec: `linalg.solve(A, B)` (§6) for a matrix right-hand
side, solving `A X = B` column by column; fails (`none`) when `A` is
singular. -/
def lsolveMat {k : ℕ} (A B : Mat k) : Option (Mat k) :=
  if A.det = 0 then none else some (A.det⁻¹ • (A.adjugate * B))

/-- Modelled from the spec: `moving_matmul(sequence, window)` (§6), the
Moving-Semigroup Composer.  Given `N` square matrices it returns `N - window + 1`
matrices, each the ordered product of `window` consecutive input matrices. -/
def moving_matmul {k : ℕ} (rs : List (Mat k)) (w : ℕ) : List (Mat k) :=
  (List.range (rs.length - w + 1)).map fun n => ((rs.drop n).take w).prod

/-! ### Extended process engine (`src/extq/dga/_xdga.py`) -/

/-- The per-transition `(ni+1) × (ni+1)` matrix `r[n]` built by
`_forward_transitions_helper` (lines 212-225): row `i < ni` of `r[n]` is filled
from the transition sub-block `m[i, :, n]` and the integral column when
`d[i, n]` holds, and otherwise carries the boundary guess in the last column;
the corner `r[n, ni, ni]` is set to `1`. -/
def forwardR (ni nt : ℕ) (m f : Fin ni → Fin ni → Fin nt → ℚ)
    (d : Fin ni → Fin (nt + 1) → Bool) (g : Fin ni → Fin (nt + 1) → ℚ)
    (n : Fin nt) : Mat (ni + 1) :=
  Matrix.of fun a b =>
    if ha : (a : ℕ) < ni then
      if d ⟨a, ha⟩ n.castSucc then
        if hb : (b : ℕ) < ni then m ⟨a, ha⟩ ⟨b, hb⟩ n
        else ∑ j : Fin ni, m ⟨a, ha⟩ j n * f ⟨a, ha⟩ j n
      else
        if (b : ℕ) < ni then 0 else g ⟨a, ha⟩ n.castSucc
    else
      if (b : ℕ) < ni then 0 else 1

/-- The per-transition matrix built by `_backward_transitions_helper`
(lines 423-436): column `j < ni` is filled from `m[:, j, n]` and the integral
row when `d[j, n+1]` holds at the later frame, else it carries the guess
`g[j, n+1]` in the last row; the corner `r[n, ni, ni]` is `1`. -/
def backwardR (ni nt : ℕ) (m f : Fin ni → Fin ni → Fin nt → ℚ)
    (d : Fin ni → Fin (nt + 1) → Bool) (g : Fin ni → Fin (nt + 1) → ℚ)
    (n : Fin nt) : Mat (ni + 1) :=
  Matrix.of fun a b =>
    if hb : (b : ℕ) < ni then
      if d ⟨b, hb⟩ n.succ then
        if ha : (a : ℕ) < ni then m ⟨a, ha⟩ ⟨b, hb⟩ n
        else ∑ i : Fin ni, m i ⟨b, hb⟩ n * f i ⟨b, hb⟩ n
      else
        if (a : ℕ) < ni then 0 else g ⟨b, hb⟩ n.succ
    else
      if (a : ℕ) < ni then 0 else 1

/-- `_forward_transitions_helper`: build the per-transition matrices for all
`nt` transitions and compose them into lag-`lag` products with
`moving_matmul`. -/
def forward_transitions_helper (ni nt : ℕ) (m f : Fin ni → Fin ni → Fin nt → ℚ)
    (d : Fin ni → Fin (nt + 1) → Bool) (g : Fin ni → Fin (nt + 1) → ℚ)
    (lag : ℕ) : List (Mat (ni + 1)) :=
  moving_matmul ((List.finRange nt).map (forwardR ni nt m f d g)) lag

/-- `_backward_transitions_helper`: the backward analog of
`forward_transitions_helper`. -/
def backward_transitions_helper (ni nt : ℕ) (m f : Fin ni → Fin ni → Fin nt → ℚ)
    (d : Fin ni → Fin (nt + 1) → Bool) (g : Fin ni → Fin (nt + 1) → ℚ)
    (lag : ℕ) : List (Mat (ni + 1)) :=
  moving_matmul ((List.finRange nt).map (backwardR ni nt m f d g)) lag

/-- The Python slice `w[-lag:]`: for `lag = 0` this is the whole array
(`w[-0:] = w[0:]`), otherwise the last `lag` entries. -/
def pyTail (w : List ℚ) (lag : ℕ) : List ℚ :=
  if lag = 0 then w else w.drop (w.length - lag)

/-- The assertion prologue of `forward_extended_feynman_kac` (lines 176-186):
`assert np.all(w[-lag:] == 0.0)` followed by the four shape assertions, where
`ni` and `nt` are read off `m.shape = (ni, _, nt)` and a scalar `function`
(`fshape = none`) is broadcast to shape `(ni, ni, nt)` before being checked.
Returns `true` exactly when no assertion fires. -/
def forwardFkChecks (lag : ℕ) (w : List ℚ) (mshape : ℕ × ℕ × ℕ)
    (dshape : ℕ × ℕ) (fshape : Option (ℕ × ℕ × ℕ)) (gshape : ℕ × ℕ) : Bool :=
  (pyTail w lag).all (fun v => decide (v = 0)) &&
  decide (mshape = (mshape.1, mshape.1, mshape.2.2)) &&
  decide (dshape = (mshape.1, mshape.2.2 + 1)) &&
  decide (fshape.getD (mshape.1, mshape.1, mshape.2.2)
            = (mshape.1, mshape.1, mshape.2.2)) &&
  decide (gshape = (mshape.1, mshape.2.2 + 1))

/-- The assertion prologue of `backward_extended_feynman_kac` (lines 387-397),
textually identical to the forward one. -/
def backwardFkChecks (lag : ℕ) (w : List ℚ) (mshape : ℕ × ℕ × ℕ)
    (dshape : ℕ × ℕ) (fshape : Option (ℕ × ℕ × ℕ)) (gshape : ℕ × ℕ) : Bool :=
  (pyTail w lag).all (fun v => decide (v = 0)) &&
  decide (mshape = (mshape.1, mshape.1, mshape.2.2)) &&
  decide (dshape = (mshape.1, mshape.2.2 + 1)) &&
  decide (fshape.getD (mshape.1, mshape.1, mshape.2.2)
            = (mshape.1, mshape.1, mshape.2.2)) &&
  decide (gshape = (mshape.1, mshape.2.2 + 1))

/-! ### Memory kernel and coefficient solvers (`src/extq/memory/_dga.py`) -/

/-- The lag-`t` difference `mats[t+1] - mats[t]` of a sequence of correlation
matrices (out-of-range indices read as the zero matrix). -/
def matDiff {k : ℕ} (mats : List (Mat k)) (t : ℕ) : Mat k :=
  mats.getD (t + 1) 0 - mats.getD t 0

/-- Modelled from the spec: the `n`-th term produced by the Memory Kernel
Extractor `extq.memory._memory.memory`, which is not under `src/`.  Per §4.1 it
is computed by the standard discrete Volterra recursion: the `n`-th memory term
is the step-`n+1` matrix difference minus the step-`n` difference minus a
convolution of the earlier memory terms with the matrix differences. -/
def memTerm {k : ℕ} (mats : List (Mat k)) (n : ℕ) : Mat k :=
  matDiff mats (n + 1) - matDiff mats n -
    ∑ s in (Finset.range n).attach, memTerm mats s.1 * matDiff mats (n - 1 - s.1)
termination_by n
decreasing_by exact Finset.mem_range.mp s.2

/-- Modelled from the spec: the Memory Kernel Extractor (§4.1).  A sequence of
`mem + 2` correlation matrices yields `mem` memory-correction matrices; in
particular a two-element sequence yields the empty list. -/
def memory {k : ℕ} (mats : List (Mat k)) : List (Mat k) :=
  (List.range (mats.length - 2)).map (memTerm mats)

/-- The generator assembled by `forward_coeffs` (line 911):
`gen = mats[1] - mats[0] + sum(mems)`. -/
def genF {k : ℕ} (mats : List (Mat k)) : Mat k :=
  mats.getD 1 0 - mats.getD 0 0 + (memory mats).sum

/-- The sub-block `G[:-1, :-1]` of a square matrix. -/
def initSq {d : ℕ} (G : Mat (d + 1)) : Mat d :=
  Matrix.of fun i j => G i.castSucc j.castSucc

/-- The sub-block `G[1:, 1:]` of a square matrix. -/
def tailSq {d : ℕ} (G : Mat (d + 1)) : Mat d :=
  Matrix.of fun i j => G i.succ j.succ

/-- The sub-block `G[1:-1, 1:-1]` of a square matrix. -/
def midSq {d : ℕ} (G : Mat (d + 2)) : Mat d :=
  Matrix.of fun i j => G i.succ.castSucc j.succ.castSucc

/-- The sub-block `G[:-1, 1:]` of a square matrix (used by `integral_solve`). -/
def cutSq {d : ℕ} (G : Mat (d + 1)) : Matrix (Fin d) (Fin d) ℚ :=
  Matrix.of fun i j => G i.castSucc j.succ

/-- `forward_coeffs` (lines 894-912): assemble `gen`, solve
`gen[:-1, :-1] · c = -gen[:-1, -1]` and append `1.0`; a singular free block
makes the linear solve fail and the failure propagates. -/
def forward_coeffs {d : ℕ} (mats : List (Mat (d + 1))) : Option (Fin (d + 1) → ℚ) :=
  (lsolveVec (initSq (genF mats))
      (fun i => -(genF mats i.castSucc (Fin.last d)))).map
    fun c => Fin.snoc c 1

/-- `backward_coeffs` (lines 915-936): build
`gen = solve(mats[0], mats[1] - mats[0] + sum(mems))`, solve the transposed
system `gen.T[1:, 1:] · c = -gen.T[1:, 0]`, prepend `1.0`, and post-solve
against `mats[0].T`. -/
def backward_coeffs {d : ℕ} (mats : List (Mat (d + 1))) : Option (Fin (d + 1) → ℚ) :=
  (lsolveMat (mats.getD 0 0)
      (mats.getD 1 0 - mats.getD 0 0 + (memory mats).sum)).bind fun gen =>
    (lsolveVec (tailSq genᵀ) (fun i => -(genᵀ i.succ 0))).bind fun c =>
      lsolveVec (mats.getD 0 0)ᵀ (Fin.cons 1 c)

/-- `integral_solve` (lines 856-891): assert `len(mats) == mem + 2` and
`lag % (mem + 1) == 0` (assertion failures are modelled by `none`), build the
ergodic generator, solve for the forward coefficients over `gen[1:-1, 1:-1]`
(appending `1.0`) and the backward coefficients over `gen.T[1:-1, 1:-1]`
(prepending `1.0`), and return
`(backward_coeffs @ gen[:-1, 1:] @ forward_coeffs) / dlag` with
`dlag = lag // (mem + 1)`. -/
def integral_solve {d : ℕ} (mats : List (Mat (d + 2))) (lag mem : ℕ) : Option ℚ :=
  if mats.length = mem + 2 ∧ lag % (mem + 1) = 0 then
    (lsolveMat (mats.getD 0 0)
        (mats.getD 1 0 - mats.getD 0 0 + (memory mats).sum)).bind fun gen =>
      (lsolveVec (midSq gen)
          (fun i => -(gen i.succ.castSucc (Fin.last (d + 1))))).bind fun cf =>
        (lsolveVec (midSq genᵀ) (fun i => -(genᵀ i.succ.castSucc 0))).bind fun cb =>
          some ((Fin.cons 1 cb ⬝ᵥ cutSq gen *ᵥ Fin.snoc cf 1)
            / ((lag / (mem + 1) : ℕ) : ℚ))
  else none

/-- The numpy call `np.arange(start, stop, step)` for natural arguments and a
positive step: the values `start + k·step` strictly below `stop`. -/
def arange (start stop step : ℕ) : List ℕ :=
  (List.range ((stop - start + step - 1) / step)).map fun k => start + k * step

/-- `_memlags(lag, mem)` (lines 939-962): assert `lag % (mem + 1) == 0`
(failure modelled by `none`) and return `np.arange(0, lag + 1, lag // (mem + 1))`,
the lag times at which correlation matrices are evaluated. -/
def memlags (lag mem : ℕ) : Option (List ℕ) :=
  if lag % (mem + 1) = 0 then some (arange 0 (lag + 1) (lag / (mem + 1))) else none

/-- The correlation-matrix construction step shared by every top-level memory
estimator in `_dga.py` (`mats = [build(t) for t in _memlags(lag, mem)]`), with
the collaborator matrix builder abstracted as `build`. -/
def memEstimatorMats {α : Type} (build : ℕ → α) (lag mem : ℕ) : Option (List α) :=
  (memlags lag mem).map fun ts => ts.map build

/-! ### Transforms (`src/extq/memory/_dga.py`, lines 707-853) -/

/-- One frame of `reweight_transform` (line 730): `w * (coeffs[0] + x_w @ coeffs[1:])`. -/
def reweight_frame {nb : ℕ} (coeffs : Fin (nb + 1) → ℚ) (xw : Fin nb → ℚ)
    (w : ℚ) : ℚ :=
  w * (coeffs 0 + ∑ j : Fin nb, xw j * coeffs j.succ)

/-- One frame of `forecast_transform` (line 787):
`g + np.where(d, y @ coeffs[:-1], 0.0) / coeffs[-1]`. -/
def forecast_frame {nb : ℕ} (coeffs : Fin (nb + 1) → ℚ) (y : Fin nb → ℚ)
    (d : Bool) (g : ℚ) : ℚ :=
  g + (if d then ∑ j : Fin nb, y j * coeffs j.castSucc else 0) / coeffs (Fin.last nb)

/-- `forecast_transform` over one trajectory, a frame-wise map of
`forecast_frame` over aligned (basis row, in-domain flag, guess) triples. -/
def forecast_traj {nb : ℕ} (coeffs : Fin (nb + 1) → ℚ)
    (frames : List ((Fin nb → ℚ) × Bool × ℚ)) : List ℚ :=
  frames.map fun fr => forecast_frame coeffs fr.1 fr.2.1 fr.2.2

/-- `forecast_transform` (lines 762-788): the per-trajectory map of
`forecast_traj`. -/
def forecast_transform {nb : ℕ} (coeffs : Fin (nb + 1) → ℚ)
    (trajs : List (List ((Fin nb → ℚ) × Bool × ℚ))) : List (List ℚ) :=
  trajs.map (forecast_traj coeffs)

/-- One frame of `aftcast_transform` (lines 850-852): with `n = n_w_basis + 1`,
`com = coeffs[0] + x_w @ coeffs[1:n]` and the result is
`g + np.where(d, x_b @ coeffs[n:], 0.0) / com`.  The coefficient vector has
length `1 + nw + nb`: entry `0`, then the `nw` reweighting entries, then the
`nb` aftcast entries. -/
def aftcast_frame {nw nb : ℕ} (coeffs : Fin (nw + nb + 1) → ℚ)
    (xw : Fin nw → ℚ) (xb : Fin nb → ℚ) (d : Bool) (g : ℚ) : ℚ :=
  (fun com => g + (if d then
      ∑ j : Fin nb, xb j * coeffs ⟨1 + nw + j.1, by have := j.isLt; omega⟩
    else 0) / com)
  (coeffs ⟨0, by omega⟩ +
    ∑ j : Fin nw, xw j * coeffs ⟨1 + j.1, by have := j.isLt; omega⟩)

/-- `aftcast_transform` over one trajectory, a frame-wise map of
`aftcast_frame` over aligned (w-basis row, basis row, in-domain flag, guess)
tuples. -/
def aftcast_traj {nw nb : ℕ} (coeffs : Fin (nw + nb + 1) → ℚ)
    (frames : List ((Fin nw → ℚ) × (Fin nb → ℚ) × Bool × ℚ)) : List ℚ :=
  frames.map fun fr => aftcast_frame coeffs fr.1 fr.2.1 fr.2.2.1 fr.2.2.2

/-- `aftcast_transform` (lines 822-853): the per-trajectory map of
`aftcast_traj`. -/
def aftcast_transform {nw nb : ℕ} (coeffs : Fin (nw + nb + 1) → ℚ)
    (trajs : List (List ((Fin nw → ℚ) × (Fin nb → ℚ) × Bool × ℚ))) :
    List (List ℚ) :=
  trajs.map (aftcast_traj coeffs)

/-- `reweight_transform` over one trajectory, a frame-wise map of
`reweight_frame` over aligned (w-basis row, weight) pairs. -/
def reweight_traj {nb : ℕ} (coeffs : Fin (nb + 1) → ℚ)
    (frames : List ((Fin nb → ℚ) × ℚ)) : List ℚ :=
  frames.map fun fr => reweight_frame coeffs fr.1 fr.2

/-- `reweight_transform` (lines 707-731): the per-trajectory map of
`reweight_traj`. -/
def reweight_transform {nb : ℕ} (coeffs : Fin (nb + 1) → ℚ)
    (trajs : List (List ((Fin nb → ℚ) × ℚ))) : List (List ℚ) :=
  trajs.map (reweight_traj coeffs)

/-- `reweight_solve` (lines 681-704): `backward_coeffs` followed by
`reweight_transform`; a solver failure propagates. -/
def reweight_solve {nb : ℕ} (mats : List (Mat (nb + 1)))
    (trajs : List (List ((Fin nb → ℚ) × ℚ))) : Option (List (List ℚ)) :=
  (backward_coeffs mats).map fun c => reweight_transform c trajs

/-- `forecast_solve` (lines 734-759): `forward_coeffs` followed by
`forecast_transform`; a solver failure propagates. -/
def forecast_solve {nb : ℕ} (mats : List (Mat (nb + 1)))
    (trajs : List (List ((Fin nb → ℚ) × Bool × ℚ))) : Option (List (List ℚ)) :=
  (forward_coeffs mats).map fun c => forecast_transform c trajs

/-- `aftcast_solve` (lines 791-819): `backward_coeffs` followed by
`aftcast_transform`; a solver failure propagates. -/
def aftcast_solve {nw nb : ℕ} (mats : List (Mat (nw + nb + 1)))
    (trajs : List (List ((Fin nw → ℚ) × (Fin nb → ℚ) × Bool × ℚ))) :
    Option (List (List ℚ)) :=
  (backward_coeffs mats).map fun c => aftcast_transform c trajs

/-! ### Classic single-lag Galerkin solvers, written from the spec for the
`mem = 0` refinement claim -/

/-- Written from the spec (§8, §4.2): the classic single-lag forward Galerkin
solver, with generator `gen = m1 - m0` and no memory correction. -/
def forward_coeffs_single {d : ℕ} (m0 m1 : Mat (d + 1)) : Option (Fin (d + 1) → ℚ) :=
  (lsolveVec (initSq (m1 - m0))
      (fun i => -((m1 - m0) i.castSucc (Fin.last d)))).map
    fun c => Fin.snoc c 1

/-- Written from the spec (§8, §4.2): the classic single-lag backward Galerkin
solver, with generator `gen = solve(m0, m1 - m0)` and no memory correction. -/
def backward_coeffs_single {d : ℕ} (m0 m1 : Mat (d + 1)) : Option (Fin (d + 1) → ℚ) :=
  (lsolveMat m0 (m1 - m0)).bind fun gen =>
    (lsolveVec (tailSq genᵀ) (fun i => -(genᵀ i.succ 0))).bind fun c =>
      lsolveVec m0ᵀ (Fin.cons 1 c)

/-- Written from the spec: the classic single-lag reweighting estimator
(backward solve with no memory, followed by the reweight transform). -/
def reweight_solve_single {nb : ℕ} (m0 m1 : Mat (nb + 1))
    (trajs : List (List ((Fin nb → ℚ) × ℚ))) : Option (List (List ℚ)) :=
  (backward_coeffs_single m0 m1).map fun c => reweight_transform c trajs

/-- Written from the spec: the classic single-lag forecast estimator (forward
solve with no memory, followed by the forecast transform). -/
def forecast_solve_single {nb : ℕ} (m0 m1 : Mat (nb + 1))
    (trajs : List (List ((Fin nb → ℚ) × Bool × ℚ))) : Option (List (List ℚ)) :=
  (forward_coeffs_single m0 m1).map fun c => forecast_transform c trajs

/-- Written from the spec: the classic single-lag aftcast estimator (backward
solve with no memory, followed by the aftcast transform). -/
def aftcast_solve_single {nw nb : ℕ} (m0 m1 : Mat (nw + nb + 1))
    (trajs : List (List ((Fin nw → ℚ) × (Fin nb → ℚ) × Bool × ℚ))) :
    Option (List (List ℚ)) :=
  (backward_coeffs_single m0 m1).map fun c => aftcast_transform c trajs

/-! ### Soundness of the modelled linear solver -/

theorem lsolveVec_none_iff {k : ℕ} (A : Mat k) (b : Fin k → ℚ) :
    lsolveVec A b = none ↔ A.det = 0 := by
  unfold lsolveVec
  split_ifs with h <;> simp [h]

theorem lsolveVec_some {k : ℕ} {A : Mat k} {b x : Fin k → ℚ}
    (h : lsolveVec A b = some x) : A.det ≠ 0 ∧ A *ᵥ x = b := by
  unfold lsolveVec at h
  split_ifs at h with hd
  refine ⟨hd, ?_⟩
  obtain rfl : A.det⁻¹ • (A.adjugate *ᵥ b) = x := Option.some.inj h
  calc A *ᵥ (A.det⁻¹ • (A.adjugate *ᵥ b))
      = A.det⁻¹ • (A *ᵥ (A.adjugate *ᵥ b)) := Matrix.mulVec_smul A A.det⁻¹ _
    _ = A.det⁻¹ • ((A * A.adjugate) *ᵥ b) := by rw [Matrix.mulVec_mulVec]
    _ = A.det⁻¹ • ((A.det • (1 : Mat k)) *ᵥ b) := by rw [Matrix.mul_adjugate]
    _ = A.det⁻¹ • (A.det • ((1 : Mat k) *ᵥ b)) := by rw [Matrix.smul_mulVec_assoc]
    _ = b := by rw [Matrix.one_mulVec, smul_smul, inv_mul_cancel₀ hd, one_smul]

theorem mulVec_inj_of_det_ne_zero {k : ℕ} {A : Mat k} (hd : A.det ≠ 0)
    {x y : Fin k → ℚ} (hxy : A *ᵥ x = A *ᵥ y) : x = y := by
  have key : ∀ z : Fin k → ℚ, A.adjugate *ᵥ (A *ᵥ z) = A.det • z := by
    intro z
    rw [Matrix.mulVec_mulVec, Matrix.adjugate_mul, Matrix.smul_mulVec_assoc,
      Matrix.one_mulVec]
  calc x = A.det⁻¹ • (A.det • x) := by
        rw [smul_smul, inv_mul_cancel₀ hd, one_smul]
    _ = A.det⁻¹ • (A.adjugate *ᵥ (A *ᵥ x)) := by rw [key]
    _ = A.det⁻¹ • (A.adjugate *ᵥ (A *ᵥ y)) := by rw [hxy]
    _ = A.det⁻¹ • (A.det • y) := by rw [key]
    _ = y := by rw [smul_smul, inv_mul_cancel₀ hd, one_smul]

theorem lsolveMat_some {k : ℕ} {A B G : Mat k} (h : lsolveMat A B = some G) :
    A.det ≠ 0 ∧ A * G = B := by
  unfold lsolveMat at h
  split_ifs at h with hd
  refine ⟨hd, ?_⟩
  obtain rfl : A.det⁻¹ • (A.adjugate * B) = G := Option.some.inj h
  calc A * (A.det⁻¹ • (A.adjugate * B))
      = A.det⁻¹ • (A * (A.adjugate * B)) := by rw [Matrix.mul_smul]
    _ = A.det⁻¹ • ((A * A.adjugate) * B) := by rw [Matrix.mul_assoc]
    _ = A.det⁻¹ • ((A.det • (1 : Mat k)) * B) := by rw [Matrix.mul_adjugate]
    _ = B := by
        rw [smul_mul_assoc, one_mul, smul_smul, inv_mul_cancel₀ hd, one_smul]

/-! ### Entry lemmas for the per-transition matrices -/

theorem forwardR_castSucc_castSucc {ni nt : ℕ} (m f : Fin ni → Fin ni → Fin nt → ℚ)
    (d : Fin ni → Fin (nt + 1) → Bool) (g : Fin ni → Fin (nt + 1) → ℚ)
    (n : Fin nt) (i j : Fin ni) :
    forwardR ni nt m f d g n i.castSucc j.castSucc
      = if d i n.castSucc then m i j n else 0 := by
  simp [forwardR, Fin.is_lt, Fin.eta]

theorem forwardR_castSucc_last {ni nt : ℕ} (m f : Fin ni → Fin ni → Fin nt → ℚ)
    (d : Fin ni → Fin (nt + 1) → Bool) (g : Fin ni → Fin (nt + 1) → ℚ)
    (n : Fin nt) (i : Fin ni) :
    forwardR ni nt m f d g n i.castSucc (Fin.last ni)
      = if d i n.castSucc then ∑ j : Fin ni, m i j n * f i j n
        else g i n.castSucc := by
  simp [forwardR, Fin.is_lt, Fin.eta]

theorem forwardR_last {ni nt : ℕ} (m f : Fin ni → Fin ni → Fin nt → ℚ)
    (d : Fin ni → Fin (nt + 1) → Bool) (g : Fin ni → Fin (nt + 1) → ℚ)
    (n : Fin nt) (b : Fin (ni + 1)) :
    forwardR ni nt m f d g n (Fin.last ni) b
      = if b = Fin.last ni then 1 else 0 := by
  by_cases hb : b = Fin.last ni
  · subst hb; simp [forwardR]
  · have hlt : (b : ℕ) < ni := Fin.val_lt_last hb
    simp [forwardR, hlt, hb]

theorem backwardR_castSucc_castSucc {ni nt : ℕ} (m f : Fin ni → Fin ni → Fin nt → ℚ)
    (d : Fin ni → Fin (nt + 1) → Bool) (g : Fin ni → Fin (nt + 1) → ℚ)
    (n : Fin nt) (i j : Fin ni) :
    backwardR ni nt m f d g n i.castSucc j.castSucc
      = if d j n.succ then m i j n else 0 := by
  simp [backwardR, Fin.is_lt, Fin.eta]

theorem backwardR_last_castSucc {ni nt : ℕ} (m f : Fin ni → Fin ni → Fin nt → ℚ)
    (d : Fin ni → Fin (nt + 1) → Bool) (g : Fin ni → Fin (nt + 1) → ℚ)
    (n : Fin nt) (j : Fin ni) :
    backwardR ni nt m f d g n (Fin.last ni) j.castSucc
      = if d j n.succ then ∑ i : Fin ni, m i j n * f i j n
        else g j n.succ := by
  simp [backwardR, Fin.is_lt, Fin.eta]

theorem backwardR_last_col {ni nt : ℕ} (m f : Fin ni → Fin ni → Fin nt → ℚ)
    (d : Fin ni → Fin (nt + 1) → Bool) (g : Fin ni → Fin (nt + 1) → ℚ)
    (n : Fin nt) (a : Fin (ni + 1)) :
    backwardR ni nt m f d g n a (Fin.last ni)
      = if a = Fin.last ni then 1 else 0 := by
  by_cases ha : a = Fin.last ni
  · subst ha; simp [backwardR]
  · have hlt : (a : ℕ) < ni := Fin.val_lt_last ha
    simp [backwardR, hlt, ha]

/-! ### The absorbing boundary row/column is preserved by products -/

theorem lastRow_unit_prod {k : ℕ} (L : List (Mat (k + 1)))
    (h : ∀ A ∈ L, ∀ b, A (Fin.last k) b = if b = Fin.last k then 1 else 0) :
    ∀ b, L.prod (Fin.last k) b = if b = Fin.last k then 1 else 0 := by
  induction L with
  | nil =>
    intro b
    rw [List.prod_nil, Matrix.one_apply]
    by_cases hb : b = Fin.last k <;> simp [hb, eq_comm]
  | cons A L ih =>
    intro b
    have hA := h A (List.mem_cons_self A L)
    have hL := ih fun B hB c => h B (List.mem_cons_of_mem A hB) c
    rw [List.prod_cons]
    show (A * L.prod) (Fin.last k) b = _
    rw [Matrix.mul_apply]
    calc ∑ c, A (Fin.last k) c * L.prod c b
        = ∑ c, (if c = Fin.last k then 1 else 0) * L.prod c b := by
          simp only [hA]
      _ = L.prod (Fin.last k) b := by
          simp [ite_mul]
      _ = if b = Fin.last k then 1 else 0 := hL b

theorem lastCol_unit_prod {k : ℕ} (L : List (Mat (k + 1)))
    (h : ∀ A ∈ L, ∀ a, A a (Fin.last k) = if a = Fin.last k then 1 else 0) :
    ∀ a, L.prod a (Fin.last k) = if a = Fin.last k then 1 else 0 := by
  induction L with
  | nil =>
    intro a
    rw [List.prod_nil, Matrix.one_apply]
  | cons A L ih =>
    intro a
    have hA := h A (List.mem_cons_self A L)
    have hL := ih fun B hB c => h B (List.mem_cons_of_mem A hB) c
    rw [List.prod_cons]
    show (A * L.prod) a (Fin.last k) = _
    rw [Matrix.mul_apply]
    calc ∑ c, A a c * L.prod c (Fin.last k)
        = ∑ c, A a c * (if c = Fin.last k then 1 else 0) := by
          simp only [hL]
      _ = A a (Fin.last k) := by
          simp [mul_ite]
      _ = if a = Fin.last k then 1 else 0 := hA a

theorem mem_moving_matmul {k : ℕ} (rs : List (Mat k)) (w : ℕ) (A : Mat k)
    (hA : A ∈ moving_matmul rs w) :
    ∃ n, A = ((rs.drop n).take w).prod := by
  obtain ⟨n, -, hn⟩ := List.mem_map.mp hA
  exact ⟨n, hn.symm⟩

/-! ### Claim theorems -/

/-- C1: for every trajectory and transition `n` the forward extended engine
builds an `(ni+1) × (ni+1)` matrix `r[n]` in which an in-domain row `i` carries
the transition sub-block `m[i, :, n]` in columns `0..ni-1` and the accumulated
integral `Σ_j m[i,j,n]·f[i,j,n]` in column `ni`; an out-of-domain row `i` is
zero except for the guess `g[i, n]` in column `ni`; the corner `r[n, ni, ni]`
is `1`; and the per-transition matrices are composed into lag-`lag` products by
`moving_matmul`. -/
theorem forward_engine_per_transition (ni nt : ℕ)
    (m f : Fin ni → Fin ni → Fin nt → ℚ) (d : Fin ni → Fin (nt + 1) → Bool)
    (g : Fin ni → Fin (nt + 1) → ℚ) (lag : ℕ) (n : Fin nt) :
    (∀ i : Fin ni, d i n.castSucc = true →
        (∀ j : Fin ni, forwardR ni nt m f d g n i.castSucc j.castSucc = m i j n) ∧
        forwardR ni nt m f d g n i.castSucc (Fin.last ni)
          = ∑ j : Fin ni, m i j n * f i j n) ∧
    (∀ i : Fin ni, d i n.castSucc = false →
        (∀ j : Fin ni, forwardR ni nt m f d g n i.castSucc j.castSucc = 0) ∧
        forwardR ni nt m f d g n i.castSucc (Fin.last ni) = g i n.castSucc) ∧
    forwardR ni nt m f d g n (Fin.last ni) (Fin.last ni) = 1 ∧
    forward_transitions_helper ni nt m f d g lag
      = moving_matmul ((List.finRange nt).map (forwardR ni nt m f d g)) lag := by
  refine ⟨fun i hi => ⟨fun j => ?_, ?_⟩, fun i hi => ⟨fun j => ?_, ?_⟩, ?_, rfl⟩
  · rw [forwardR_castSucc_castSucc, if_pos hi]
  · rw [forwardR_castSucc_last, if_pos hi]
  · rw [forwardR_castSucc_castSucc, if_neg (by simp [hi])]
  · rw [forwardR_castSucc_last, if_neg (by simp [hi])]
  · rw [forwardR_last, if_pos rfl]

/-- Witness for C1 at a concrete input: `ni = 2`, `nt = 1`, with index `0`
in-domain and index `1` out-of-domain at frame `0`. -/
theorem forward_engine_per_transition_witness :
    forwardR 2 1 (fun _ _ _ => 2) (fun _ _ _ => 3) (fun i _ => i.1 == 0)
        (fun _ _ => 5) 0 (Fin.castSucc 0) (Fin.castSucc 1) = 2 ∧
    forwardR 2 1 (fun _ _ _ => 2) (fun _ _ _ => 3) (fun i _ => i.1 == 0)
        (fun _ _ => 5) 0 (Fin.castSucc 1) (Fin.last 2) = 5 :=
  ⟨((forward_engine_per_transition 2 1 (fun _ _ _ => 2) (fun _ _ _ => 3)
      (fun i _ => i.1 == 0) (fun _ _ => 5) 1 0).1 0 (by decide)).1 1,
   ((forward_engine_per_transition 2 1 (fun _ _ _ => 2) (fun _ _ _ => 3)
      (fun i _ => i.1 == 0) (fun _ _ => 5) 1 0).2.1 1 (by decide)).2⟩

/-- C2: the backward extended engine is the transpose-indexed mirror: it tests
`in_domain` at the later frame `n+1`; an in-domain column `j` carries
`m[:, j, n]` in rows `0..ni-1` with the integral `Σ_i m[i,j,n]·f[i,j,n]`
accumulated into `r[n, ni, j]`; an out-of-domain column has
`r[n, ni, j] = g[j, n+1]`; and `r[n, ni, ni] = 1` always. -/
theorem backward_engine_per_transition (ni nt : ℕ)
    (m f : Fin ni → Fin ni → Fin nt → ℚ) (d : Fin ni → Fin (nt + 1) → Bool)
    (g : Fin ni → Fin (nt + 1) → ℚ) (lag : ℕ) (n : Fin nt) :
    (∀ j : Fin ni, d j n.succ = true →
        (∀ i : Fin ni, backwardR ni nt m f d g n i.castSucc j.castSucc = m i j n) ∧
        backwardR ni nt m f d g n (Fin.last ni) j.castSucc
          = ∑ i : Fin ni, m i j n * f i j n) ∧
    (∀ j : Fin ni, d j n.succ = false →
        (∀ i : Fin ni, backwardR ni nt m f d g n i.castSucc j.castSucc = 0) ∧
        backwardR ni nt m f d g n (Fin.last ni) j.castSucc = g j n.succ) ∧
    backwardR ni nt m f d g n (Fin.last ni) (Fin.last ni) = 1 ∧
    backward_transitions_helper ni nt m f d g lag
      = moving_matmul ((List.finRange nt).map (backwardR ni nt m f d g)) lag := by
  refine ⟨fun j hj => ⟨fun i => ?_, ?_⟩, fun j hj => ⟨fun i => ?_, ?_⟩, ?_, rfl⟩
  · rw [backwardR_castSucc_castSucc, if_pos hj]
  · rw [backwardR_last_castSucc, if_pos hj]
  · rw [backwardR_castSucc_castSucc, if_neg (by simp [hj])]
  · rw [backwardR_last_castSucc, if_neg (by simp [hj])]
  · rw [backwardR_last_col, if_pos rfl]

/-- Witness for C2 at a concrete input: `ni = 2`, `nt = 1`, with index `0`
in-domain and index `1` out-of-domain at frame `1`. -/
theorem backward_engine_per_transition_witness :
    backwardR 2 1 (fun _ _ _ => 2) (fun _ _ _ => 3) (fun j _ => j.1 == 0)
        (fun _ _ => 5) 0 (Fin.castSucc 1) (Fin.castSucc 0) = 2 ∧
    backwardR 2 1 (fun _ _ _ => 2) (fun _ _ _ => 3) (fun j _ => j.1 == 0)
        (fun _ _ => 5) 0 (Fin.last 2) (Fin.castSucc 1) = 5 :=
  ⟨((backward_engine_per_transition 2 1 (fun _ _ _ => 2) (fun _ _ _ => 3)
      (fun j _ => j.1 == 0) (fun _ _ => 5) 1 0).1 0 (by decide)).1 1,
   ((backward_engine_per_transition 2 1 (fun _ _ _ => 2) (fun _ _ _ => 3)
      (fun j _ => j.1 == 0) (fun _ _ => 5) 1 0).2.1 1 (by decide)).2⟩

/-- C10: every forward per-transition matrix has last row equal to the unit
vector `e_ni`, every backward per-transition matrix has last column equal to
`e_ni`, and — since this shape is preserved by matrix products — every
composite matrix produced by `moving_matmul` inside the two helpers keeps the
boundary state absorbing with weight exactly `1`. -/
theorem boundary_state_absorbing (ni nt : ℕ)
    (m f : Fin ni → Fin ni → Fin nt → ℚ) (d : Fin ni → Fin (nt + 1) → Bool)
    (g : Fin ni → Fin (nt + 1) → ℚ) :
    (∀ n : Fin nt, ∀ b, forwardR ni nt m f d g n (Fin.last ni) b
        = if b = Fin.last ni then 1 else 0) ∧
    (∀ n : Fin nt, ∀ a, backwardR ni nt m f d g n a (Fin.last ni)
        = if a = Fin.last ni then 1 else 0) ∧
    (∀ lag : ℕ, ∀ A ∈ forward_transitions_helper ni nt m f d g lag,
        ∀ b, A (Fin.last ni) b = if b = Fin.last ni then 1 else 0) ∧
    (∀ lag : ℕ, ∀ A ∈ backward_transitions_helper ni nt m f d g lag,
        ∀ a, A a (Fin.last ni) = if a = Fin.last ni then 1 else 0) := by
  refine ⟨forwardR_last m f d g, backwardR_last_col m f d g, ?_, ?_⟩
  · intro lag A hA
    obtain ⟨n, rfl⟩ := mem_moving_matmul _ _ _ hA
    apply lastRow_unit_prod
    intro B hB
    have hB' : B ∈ (List.finRange nt).map (forwardR ni nt m f d g) :=
      List.drop_subset _ _ (List.take_subset _ _ hB)
    obtain ⟨n', -, rfl⟩ := List.mem_map.mp hB'
    exact forwardR_last m f d g n'
  · intro lag A hA
    obtain ⟨n, rfl⟩ := mem_moving_matmul _ _ _ hA
    apply lastCol_unit_prod
    intro B hB
    have hB' : B ∈ (List.finRange nt).map (backwardR ni nt m f d g) :=
      List.drop_subset _ _ (List.take_subset _ _ hB)
    obtain ⟨n', -, rfl⟩ := List.mem_map.mp hB'
    exact backwardR_last_col m f d g n'

/-- Witness for C10: the lag-1 composite of a one-transition trajectory keeps
the absorbing boundary row and column. -/
theorem boundary_state_absorbing_witness :
    (((List.finRange 1).map (forwardR 1 1 (fun _ _ _ => 2) (fun _ _ _ => 3)
        (fun _ _ => true) (fun _ _ => 5))).take 1).prod (Fin.last 1) 0 = 0 ∧
    (((List.finRange 1).map (backwardR 1 1 (fun _ _ _ => 2) (fun _ _ _ => 3)
        (fun _ _ => true) (fun _ _ => 5))).take 1).prod 0 (Fin.last 1) = 0 := by
  constructor
  · have h := (boundary_state_absorbing 1 1 (fun _ _ _ => 2) (fun _ _ _ => 3)
      (fun _ _ => true) (fun _ _ => 5)).2.2.1 1
      ((((List.finRange 1).map (forwardR 1 1 (fun _ _ _ => 2) (fun _ _ _ => 3)
        (fun _ _ => true) (fun _ _ => 5))).take 1).prod)
      (List.mem_singleton_self _) 0
    simpa using h
  · have h := (boundary_state_absorbing 1 1 (fun _ _ _ => 2) (fun _ _ _ => 3)
      (fun _ _ => true) (fun _ _ => 5)).2.2.2 1
      ((((List.finRange 1).map (backwardR 1 1 (fun _ _ _ => 2) (fun _ _ _ => 3)
        (fun _ _ => true) (fun _ _ => 5))).take 1).prod)
      (List.mem_singleton_self _) 0
    simpa using h

/-- C3: `forward_coeffs(mats)` is the solution of
`gen[:-1, :-1] · c_free = -gen[:-1, -1]` with `1.0` appended, where
`gen = mats[1] - mats[0] + Σ memory terms`: the returned vector ends in `1`,
its free part is the unique solution of the linear system, and the call fails
(the solve error propagates, modelled by `none`) exactly when the free block
is singular. -/
theorem forward_coeffs_spec {d : ℕ} (mats : List (Mat (d + 1))) :
    (forward_coeffs mats = none ↔ (initSq (genF mats)).det = 0) ∧
    (∀ c, forward_coeffs mats = some c →
      c (Fin.last d) = 1 ∧
      initSq (genF mats) *ᵥ (fun i => c i.castSucc)
        = (fun i => -(genF mats i.castSucc (Fin.last d))) ∧
      (∀ y, initSq (genF mats) *ᵥ y
          = (fun i => -(genF mats i.castSucc (Fin.last d)))
        → y = fun i => c i.castSucc)) := by
  constructor
  · unfold forward_coeffs
    rw [Option.map_eq_none']
    exact lsolveVec_none_iff _ _
  · intro c hc
    obtain ⟨x, hx, hsnoc⟩ := Option.map_eq_some'.mp hc
    obtain ⟨hdet, hsol⟩ := lsolveVec_some hx
    have hcast : (fun i => c i.castSucc) = x := by
      funext i
      rw [← hsnoc, Fin.snoc_castSucc]
    refine ⟨by rw [← hsnoc, Fin.snoc_last], by rw [hcast]; exact hsol, ?_⟩
    intro y hy
    rw [hcast]
    exact mulVec_inj_of_det_ne_zero hdet (by rw [hy, hsol])

/-- Witness for C3 at `mats = [0, [[5]]]` (one basis function): the returned
coefficient vector is the constant `1` and its last entry is `1`. -/
theorem forward_coeffs_spec_witness :
    forward_coeffs [(0 : Mat 1), Matrix.of ![![5]]] = some (fun _ => 1) ∧
    (fun _ : Fin 1 => (1 : ℚ)) (Fin.last 0) = 1 := by
  have h : forward_coeffs [(0 : Mat 1), Matrix.of ![![5]]] = some (fun _ => 1) := by
    unfold forward_coeffs lsolveVec
    rw [if_neg (by simp [Matrix.det_isEmpty])]
    refine congrArg some (funext fun i => ?_)
    have hi : i = Fin.last 0 := Fin.ext (by have := i.isLt; omega)
    rw [hi]
    exact Fin.snoc_last ..
  exact ⟨h, ((forward_coeffs_spec [(0 : Mat 1), Matrix.of ![![5]]]).2
    (fun _ => 1) h).1⟩

/-- C4: every successful `backward_coeffs(mats)` result `v` factors through a
generator `gen` solving `mats[0] · gen = mats[1] - mats[0] + Σ memory terms`
(a linear solve, not an explicit inverse), an intermediate vector solving the
transposed system `gen.T[1:, 1:] · c = -gen.T[1:, 0]` with `1.0` prepended as
the boundary coefficient, and a final solve against `mats[0].T`, so that
`mats[0].T · v` equals the prepended intermediate vector. -/
theorem backward_coeffs_spec {d : ℕ} (mats : List (Mat (d + 1)))
    (v : Fin (d + 1) → ℚ) (h : backward_coeffs mats = some v) :
    ∃ gen c,
      (mats.getD 0 0).det ≠ 0 ∧
      mats.getD 0 0 * gen
        = mats.getD 1 0 - mats.getD 0 0 + (memory mats).sum ∧
      tailSq genᵀ *ᵥ c = (fun i => -(gen 0 i.succ)) ∧
      (mats.getD 0 0)ᵀ *ᵥ v = Fin.cons 1 c := by
  unfold backward_coeffs at h
  obtain ⟨gen, hg, h⟩ := Option.bind_eq_some.mp h
  obtain ⟨c, hc, h⟩ := Option.bind_eq_some.mp h
  exact ⟨gen, c, (lsolveMat_some hg).1, (lsolveMat_some hg).2,
    (lsolveVec_some hc).2, (lsolveVec_some h).2⟩

/-- Witness for C4 at `mats = [1, [[3]]]`: the result is the constant vector
`1`, and the factorization of the claim holds for it. -/
theorem backward_coeffs_spec_witness :
    backward_coeffs [(1 : Mat 1), Matrix.of ![![3]]] = some (fun _ => 1) ∧
    ∃ gen c,
      ((([(1 : Mat 1), Matrix.of ![![3]]]).getD 0 0)).det ≠ 0 ∧
      ([(1 : Mat 1), Matrix.of ![![3]]]).getD 0 0 * gen
        = ([(1 : Mat 1), Matrix.of ![![3]]]).getD 1 0
          - ([(1 : Mat 1), Matrix.of ![![3]]]).getD 0 0
          + (memory [(1 : Mat 1), Matrix.of ![![3]]]).sum ∧
      tailSq genᵀ *ᵥ c = (fun i => -(gen 0 i.succ)) ∧
      (([(1 : Mat 1), Matrix.of ![![3]]]).getD 0 0)ᵀ *ᵥ (fun _ => 1)
        = Fin.cons 1 c := by
  have h : backward_coeffs [(1 : Mat 1), Matrix.of ![![3]]]
      = some (fun _ => 1) := by
    unfold backward_coeffs lsolveMat lsolveVec
    simp only [List.getD_cons_zero, List.getD_cons_succ]
    rw [if_neg (by simp), Option.some_bind,
      if_neg (by simp [Matrix.det_isEmpty]), Option.some_bind,
      if_neg (by simp [Matrix.transpose_one])]
    refine congrArg some (funext fun i => ?_)
    have hi : i = 0 := Fin.ext (by have := i.isLt; omega)
    rw [hi]
    simp [Matrix.transpose_one, Matrix.adjugate_one, Matrix.one_mulVec,
      Fin.cons_zero]
  exact ⟨h, backward_coeffs_spec [(1 : Mat 1), Matrix.of ![![3]]] (fun _ => 1) h⟩

/-- C5: a successful `integral_solve(mats, lag, mem)` on a sequence of exactly
`mem + 2` matrices with `(mem + 1) ∣ lag` returns
`(backward_coeffs · gen[:-1, 1:] · forward_coeffs) / Δ` with
`Δ = lag / (mem + 1)`, where `gen` solves
`mats[0] · gen = mats[1] - mats[0] + Σ memory terms`, the forward coefficients
drop the first and last index (`gen[1:-1, 1:-1] · cf = -gen[1:-1, -1]`, `1.0`
appended) and the backward coefficients solve the transposed analog
(`gen.T[1:-1, 1:-1] · cb = -gen.T[1:-1, 0]`, `1.0` prepended). -/
theorem integral_solve_spec {d : ℕ} (mats : List (Mat (d + 2))) (lag mem : ℕ)
    (hlen : mats.length = mem + 2) (hdvd : lag % (mem + 1) = 0) (s : ℚ)
    (h : integral_solve mats lag mem = some s) :
    ∃ gen cf cb,
      mats.getD 0 0 * gen
        = mats.getD 1 0 - mats.getD 0 0 + (memory mats).sum ∧
      midSq gen *ᵥ cf = (fun i => -(gen i.succ.castSucc (Fin.last (d + 1)))) ∧
      midSq genᵀ *ᵥ cb = (fun i => -(genᵀ i.succ.castSucc 0)) ∧
      s = (Fin.cons 1 cb ⬝ᵥ cutSq gen *ᵥ Fin.snoc cf 1)
        / ((lag / (mem + 1) : ℕ) : ℚ) := by
  unfold integral_solve at h
  rw [if_pos ⟨hlen, hdvd⟩] at h
  obtain ⟨gen, hg, h⟩ := Option.bind_eq_some.mp h
  obtain ⟨cf, hcf, h⟩ := Option.bind_eq_some.mp h
  obtain ⟨cb, hcb, h⟩ := Option.bind_eq_some.mp h
  exact ⟨gen, cf, cb, (lsolveMat_some hg).2, (lsolveVec_some hcf).2,
    (lsolveVec_some hcb).2, (Option.some.inj h).symm⟩

/-- C7: with `mem = 0` the sequence has two matrices, the memory correction is
the empty sum, and every memory-augmented solver collapses to its classic
single-lag Galerkin counterpart (forward, backward, reweight, forecast and
aftcast). -/
theorem mem_zero_is_single_lag {nw nb : ℕ} (m0 m1 : Mat (nb + 1))
    (b0 b1 : Mat (nw + nb + 1)) :
    memory [m0, m1] = [] ∧
    forward_coeffs [m0, m1] = forward_coeffs_single m0 m1 ∧
    backward_coeffs [m0, m1] = backward_coeffs_single m0 m1 ∧
    (∀ trajs, forecast_solve [m0, m1] trajs = forecast_solve_single m0 m1 trajs) ∧
    (∀ trajs, reweight_solve [m0, m1] trajs = reweight_solve_single m0 m1 trajs) ∧
    (∀ trajs, aftcast_solve [b0, b1] trajs = aftcast_solve_single b0 b1 trajs) := by
  have hmem : ∀ (k : ℕ) (a b : Mat k), memory [a, b] = [] := fun k a b => rfl
  have hgen : genF [m0, m1] = m1 - m0 := by
    simp [genF, memory]
  have hfwd : forward_coeffs [m0, m1] = forward_coeffs_single m0 m1 := by
    unfold forward_coeffs forward_coeffs_single
    rw [hgen]
  have hbwd : ∀ (k : ℕ) (a b : Mat (k + 1)),
      backward_coeffs [a, b] = backward_coeffs_single a b := by
    intro k a b
    unfold backward_coeffs backward_coeffs_single
    simp [memory]
  refine ⟨hmem _ m0 m1, hfwd, hbwd _ m0 m1, fun trajs => ?_, fun trajs => ?_,
    fun trajs => ?_⟩
  · unfold forecast_solve forecast_solve_single
    rw [hfwd]
  · unfold reweight_solve reweight_solve_single
    rw [hbwd _ m0 m1]
  · unfold aftcast_solve aftcast_solve_single
    rw [hbwd _ b0 b1]

/-- Witness for C5 at `mats = [1, [[1, 5], [0, 1]]]`, `lag = 1`, `mem = 0`:
the ergodic average evaluates to `5` and admits the claimed factorization. -/
theorem integral_solve_spec_witness :
    integral_solve [(1 : Mat 2), Matrix.of ![![1, 5], ![0, 1]]] 1 0 = some 5 ∧
    ∃ gen cf cb,
      [(1 : Mat 2), Matrix.of ![![1, 5], ![0, 1]]].getD 0 0 * gen
        = [(1 : Mat 2), Matrix.of ![![1, 5], ![0, 1]]].getD 1 0
          - [(1 : Mat 2), Matrix.of ![![1, 5], ![0, 1]]].getD 0 0
          + (memory [(1 : Mat 2), Matrix.of ![![1, 5], ![0, 1]]]).sum ∧
      midSq gen *ᵥ cf = (fun i => -(gen i.succ.castSucc (Fin.last 1))) ∧
      midSq genᵀ *ᵥ cb = (fun i => -(genᵀ i.succ.castSucc 0)) ∧
      (5 : ℚ) = (Fin.cons 1 cb ⬝ᵥ cutSq gen *ᵥ Fin.snoc cf 1)
        / ((1 / (0 + 1) : ℕ) : ℚ) := by
  have key : ∀ (G : Mat 2) (cf cb : Fin 0 → ℚ),
      Fin.cons 1 cb ⬝ᵥ cutSq G *ᵥ Fin.snoc cf 1 = G 0 1 := by
    intro G cf cb
    simp only [Matrix.dotProduct, Matrix.mulVec, Fin.sum_univ_succ,
      Fin.sum_univ_zero, add_zero]
    have h1 : (Fin.cons (1 : ℚ) cb : Fin 1 → ℚ) 0 = 1 := rfl
    have h2 : (Fin.snoc cf (1 : ℚ) : Fin 1 → ℚ) 0 = 1 := rfl
    rw [h1, h2, one_mul, mul_one]
    show G (Fin.castSucc 0) (Fin.succ 0) = G 0 1
    rw [Fin.castSucc_zero, Fin.succ_zero_eq_one]
  have h : integral_solve [(1 : Mat 2), Matrix.of ![![1, 5], ![0, 1]]] 1 0
      = some 5 := by
    unfold integral_solve lsolveMat lsolveVec
    rw [if_pos ⟨rfl, rfl⟩]
    simp only [List.getD_cons_zero, List.getD_cons_succ]
    rw [if_neg (by simp), Option.some_bind,
      if_neg (by simp [Matrix.det_isEmpty]), Option.some_bind,
      if_neg (by simp [Matrix.det_isEmpty]), Option.some_bind]
    refine congrArg some ?_
    rw [key, show ((1 / (0 + 1) : ℕ) : ℚ) = 1 by norm_num, div_one]
    norm_num [memory, Matrix.adjugate_one, Matrix.sub_apply, Matrix.one_apply]
  exact ⟨h, integral_solve_spec [(1 : Mat 2), Matrix.of ![![1, 5], ![0, 1]]]
    1 0 rfl rfl 5 h⟩

/-- C6: the forecast and aftcast transforms return exactly the guess at every
frame whose `in_domain` flag is false — frame-wise and for every frame index
of a trajectory — so the boundary condition is never perturbed. -/
theorem transforms_preserve_guess {nw nb : ℕ} (coeffs : Fin (nb + 1) → ℚ)
    (acoeffs : Fin (nw + nb + 1) → ℚ) (y : Fin nb → ℚ) (xw : Fin nw → ℚ)
    (xb : Fin nb → ℚ) (g g' : ℚ) :
    forecast_frame coeffs y false g = g ∧
    aftcast_frame acoeffs xw xb false g' = g' ∧
    (∀ (traj : List ((Fin nb → ℚ) × Bool × ℚ)) (k : ℕ) (hk : k < traj.length),
      (traj.get ⟨k, hk⟩).2.1 = false →
      (forecast_traj coeffs traj).getD k 0 = (traj.get ⟨k, hk⟩).2.2) ∧
    (∀ (traj : List ((Fin nw → ℚ) × (Fin nb → ℚ) × Bool × ℚ)) (k : ℕ)
      (hk : k < traj.length),
      (traj.get ⟨k, hk⟩).2.2.1 = false →
      (aftcast_traj acoeffs traj).getD k 0 = (traj.get ⟨k, hk⟩).2.2.2) := by
  have hfc : ∀ (y₀ : Fin nb → ℚ) (g₀ : ℚ),
      forecast_frame coeffs y₀ false g₀ = g₀ := by
    intro y₀ g₀
    simp [forecast_frame]
  have hac : ∀ (xw₀ : Fin nw → ℚ) (xb₀ : Fin nb → ℚ) (g₀ : ℚ),
      aftcast_frame acoeffs xw₀ xb₀ false g₀ = g₀ := by
    intro xw₀ xb₀ g₀
    simp [aftcast_frame]
  refine ⟨hfc y g, hac xw xb g', ?_, ?_⟩
  · intro traj k hk hdom
    have hk' : k < (forecast_traj coeffs traj).length := by
      simpa [forecast_traj] using hk
    rw [List.getD_eq_getElem _ _ hk']
    show (traj.map fun fr => forecast_frame coeffs fr.1 fr.2.1 fr.2.2)[k] = _
    rw [List.getElem_map]
    rw [List.get_eq_getElem] at hdom ⊢
    rw [hdom]
    exact hfc _ _
  · intro traj k hk hdom
    have hk' : k < (aftcast_traj acoeffs traj).length := by
      simpa [aftcast_traj] using hk
    rw [List.getD_eq_getElem _ _ hk']
    show (traj.map fun fr =>
      aftcast_frame acoeffs fr.1 fr.2.1 fr.2.2.1 fr.2.2.2)[k] = _
    rw [List.getElem_map]
    rw [List.get_eq_getElem] at hdom ⊢
    rw [hdom]
    exact hac _ _ _

/-- Witness for C6: a one-frame out-of-domain trajectory reproduces its guess
`7` under the forecast transform and `9` under the aftcast transform. -/
theorem transforms_preserve_guess_witness :
    (@forecast_traj 1 (fun _ => 1)
      [(fun _ => 2, false, 7)]).getD 0 0 = 7 ∧
    (@aftcast_traj 1 1 (fun _ => 1)
      [(fun _ => 2, fun _ => 3, false, 9)]).getD 0 0 = 9 :=
  ⟨(@transforms_preserve_guess 1 1 (fun _ => 1) (fun _ => 1)
      (fun _ => 0) (fun _ => 0) (fun _ => 0) 0 0).2.2.1
      [(fun _ => 2, false, 7)] 0 (by decide) rfl,
   (@transforms_preserve_guess 1 1 (fun _ => 1) (fun _ => 1)
      (fun _ => 0) (fun _ => 0) (fun _ => 0) 0 0).2.2.2
      [(fun _ => 2, fun _ => 3, false, 9)] 0 (by decide) rfl⟩

/-- C8: if `lag % (mem + 1) ≠ 0` every estimator fails at `_memlags` with an
assertion failure (no silent correction); when divisibility holds (and
`lag > 0` so that the arange step is positive), the correlation matrices are
requested at exactly the `mem + 2` equally spaced lag times
`0, Δ, 2Δ, …, (mem+1)Δ` with `Δ = lag / (mem + 1)`; and `integral_solve`
additionally fails by assertion unless `len(mats) = mem + 2`. -/
theorem memlags_spec :
    (∀ lag mem : ℕ, lag % (mem + 1) ≠ 0 → memlags lag mem = none ∧
      ∀ (build : ℕ → Mat 1), memEstimatorMats build lag mem = none) ∧
    (∀ lag mem : ℕ, 0 < lag → lag % (mem + 1) = 0 →
      memlags lag mem
        = some ((List.range (mem + 2)).map fun k => k * (lag / (mem + 1))) ∧
      ∀ (build : ℕ → Mat 1), memEstimatorMats build lag mem
        = some (((List.range (mem + 2)).map fun k =>
            k * (lag / (mem + 1))).map build)) ∧
    (∀ (dd : ℕ) (mats : List (Mat (dd + 2))) (lag mem : ℕ),
      mats.length ≠ mem + 2 → integral_solve mats lag mem = none) := by
  refine ⟨fun lag mem h => ?_, fun lag mem h0 hd => ?_, fun dd mats lag mem hne => ?_⟩
  · have h1 : memlags lag mem = none := by
      unfold memlags
      rw [if_neg h]
    exact ⟨h1, fun build => by unfold memEstimatorMats; rw [h1]; rfl⟩
  · have harange : arange 0 (lag + 1) (lag / (mem + 1))
        = (List.range (mem + 2)).map fun k => k * (lag / (mem + 1)) := by
      have hdvd : (mem + 1) ∣ lag := Nat.dvd_of_mod_eq_zero hd
      obtain ⟨s, hs⟩ := hdvd
      have hq : lag / (mem + 1) = s := by
        rw [hs]
        exact Nat.mul_div_cancel_left s (Nat.succ_pos mem)
      have hs0 : 0 < s := by
        rcases Nat.eq_zero_or_pos s with hz | hp
        · subst hz
          rw [Nat.mul_zero] at hs
          omega
        · exact hp
      unfold arange
      rw [hq]
      have h1 : lag + 1 - 0 + s - 1 = lag + s := by omega
      rw [h1, hs, show (mem + 1) * s + s = s * (mem + 2) by ring,
        Nat.mul_div_cancel_left _ hs0]
      simp
    have h1 : memlags lag mem
        = some ((List.range (mem + 2)).map fun k => k * (lag / (mem + 1))) := by
      unfold memlags
      rw [if_pos hd, harange]
    exact ⟨h1, fun build => by unfold memEstimatorMats; rw [h1]; rfl⟩
  · unfold integral_solve
    rw [if_neg fun hcon => hne hcon.1]

/-- Witness for C8: `lag = 3, mem = 1` is rejected, `lag = 4, mem = 1`
evaluates the matrices at lag times `0, 2, 4`, and `integral_solve` rejects a
matrix sequence of the wrong length. -/
theorem memlags_spec_witness :
    memlags 3 1 = none ∧
    memlags 4 1 = some [0, 2, 4] ∧
    @integral_solve 0 [] 4 1 = none :=
  ⟨(memlags_spec.1 3 1 (by decide)).1,
   ((memlags_spec.2.1 4 1 (by decide) (by decide)).1).trans (by decide),
   memlags_spec.2.2 0 [] 4 1 (by decide)⟩

/-- C9 counterexample: at `lag = 0` the Python slice `w[-lag:]` is the whole
weight array, so the code asserts that *all* weights vanish; a call whose
"last 0 entries" are trivially all zero and whose shapes all match still
fails the assertion — refuting the claim as stated for `lag = 0`. -/
theorem fk_checks_counterexample :
    forwardFkChecks 0 [1] (1, 1, 0) (1, 1) none (1, 1) = false ∧
    backwardFkChecks 0 [1] (1, 1, 0) (1, 1) none (1, 1) = false ∧
    (([(1 : ℚ)].drop ([(1 : ℚ)].length - 0)).all fun v => decide (v = 0))
      = true := by
  refine ⟨?_, ?_, ?_⟩ <;> decide

/-- C9 (amended): the assertion prologues of both extended Feynman-Kac
solvers pass exactly when every entry of the Python slice `w[-lag:]` (the
whole array when `lag = 0`, the last `lag` entries otherwise) is zero and the
transitions/domain/function/guess shapes match
`(ni, ni, nt)` / `(ni, nt+1)` / `(ni, ni, nt)` / `(ni, nt+1)` — a scalar
`function` is broadcast and always passes its shape check; any violation is
an assertion failure with no recovery, and forward and backward perform
identical checks. -/
theorem fk_checks_spec (lag : ℕ) (w : List ℚ) (a b c : ℕ)
    (dsh gsh : ℕ × ℕ) (fsh : Option (ℕ × ℕ × ℕ)) :
    (forwardFkChecks lag w (a, b, c) dsh fsh gsh = true ↔
      ((∀ v ∈ pyTail w lag, v = 0) ∧ b = a ∧ dsh = (a, c + 1) ∧
        (∀ fs ∈ fsh, fs = (a, a, c)) ∧ gsh = (a, c + 1))) ∧
    backwardFkChecks lag w (a, b, c) dsh fsh gsh
      = forwardFkChecks lag w (a, b, c) dsh fsh gsh := by
  refine ⟨?_, rfl⟩
  cases fsh with
  | none =>
    simp [forwardFkChecks, List.all_eq_true, and_assoc, eq_comm (a := a)]
  | some fs =>
    simp [forwardFkChecks, List.all_eq_true, and_assoc, eq_comm (a := a)]
